import Mathlib

/-!
Verification development for the kplex multiplexer core
(kplex.c, options.c, serial.c).

The C data structures are embedded shallowly:

* the intrusive NULL-terminated linked lists (queue free list, FIFO chain)
  become Lean lists of the linked nodes;
* machine chars become Nat byte values;
* pointers used only as identities (senblk src, interface pair) become
  Option Nat endpoint identifiers, with none for NULL;
* the blocking and signalling parts of the pthread code have no sequential
  content; where a function can block, the result type records that case
  explicitly (NextResult.blocked).
-/

set_option maxHeartbeats 1000000
set_option maxRecDepth 40000

namespace Kplex

/-- Maximum sentence length. Modelled from the spec: SENMAX is a compile-time
constant from the header kplex.h, which is not among the sources here; the
spec names 96 bytes as its value. -/
def SENMAX : Nat := 96

/-- A sentence block (senblk_t): payload bytes, number of valid bytes, and the
weak reference to the producing interface (an endpoint identifier, none for a
NULL pointer). The intrusive next member of the C struct is represented by
the surrounding list structure. -/
structure Senblk where
  data : List Nat
  len : Nat
  src : Option Nat
deriving DecidableEq, Repr

/-- The calloc-zeroed slot contents produced by init_q. -/
def zeroSenblk : Senblk :=
  { data := List.replicate SENMAX 0, len := 0, src := none }

/-- An ioqueue_t. The free list (from the free pointer) and the FIFO chain
(from qhead, oldest first, to qtail) are the two NULL-terminated intrusive
lists over the slot array; each is embedded as the Lean list of the slots it
links. The mutex and condition variable carry no sequential content. -/
structure IoQueue where
  free : List Senblk
  qlist : List Senblk
  active : Bool
deriving DecidableEq, Repr

/-- init_q: allocates size slots (calloc, so zeroed), links all of them onto
the free list, leaves the FIFO empty and sets active. -/
def init_q (size : Nat) : IoQueue :=
  { free := List.replicate size zeroSenblk, qlist := [], active := true }

/-- senblk_copy: copies len and src and memcpy-s the first len payload bytes
into the destination slot; destination bytes past len keep their previous
contents, and the destination next pointer is cleared (represented by the
list structure). -/
def senblk_copy (dptr sptr : Senblk) : Senblk :=
  { data := sptr.data.take sptr.len ++ dptr.data.drop sptr.len,
    len := sptr.len, src := sptr.src }

/-- push_senblk. A NULL senblk is the magic off switch: active becomes false
and nothing is enqueued. Otherwise a slot is taken from the free list if one
is there, else stolen from the head of the FIFO (dropping the oldest unit);
the senblk is copied into the slot, which is appended at the tail.

Two degenerate states need care. With free and FIFO both empty the C code
dereferences a NULL qhead; the model leaves the queue unchanged there. With
free empty and exactly one slot on the FIFO the C code makes qtail point
back at the stolen slot, creating a one-slot cycle; the model keeps the flat
list semantics. Neither state is reached by push-only traces from init_q
with size at least 2 (a steal then always finds at least two slots
enqueued), but both become reachable once next_senblk borrows slots (for
example push, push, next, push on a queue of size 2 steals from a singleton
FIFO). Theorems that range over mixed operation sequences therefore carry an
explicit side condition (traceSafe) confining them to the states where this
model and the C code agree. -/
def push_senblk (sptr : Option Senblk) (q : IoQueue) : IoQueue :=
  match sptr with
  | none => { q with active := false }
  | some s =>
    match q.free with
    | tptr :: rest =>
      { q with free := rest, qlist := q.qlist ++ [senblk_copy tptr s] }
    | [] =>
      match q.qlist with
      | tptr :: rest => { q with qlist := rest ++ [senblk_copy tptr s] }
      | [] => q

/-- Result of next_senblk: blocked models the pthread_cond_wait loop (the
call does not return while the FIFO is empty and the queue active), eos the
NULL return for a shut-down queue, got a detached head slot handed to the
caller. -/
inductive NextResult where
  | blocked
  | eos
  | got (s : Senblk)
deriving DecidableEq, Repr

/-- next_senblk: while the FIFO is empty, wait if active, return NULL if not;
otherwise detach the head slot (fixing qtail when the FIFO empties). -/
def next_senblk (q : IoQueue) : NextResult × IoQueue :=
  match q.qlist with
  | [] => if q.active then (NextResult.blocked, q) else (NextResult.eos, q)
  | tptr :: rest => (NextResult.got tptr, { q with qlist := rest })

/-- senblk_free: prepend the returned slot to the free list. -/
def senblk_free (sptr : Senblk) (q : IoQueue) : IoQueue :=
  { q with free := sptr :: q.free }

/-- One queue operation, for stating properties of operation sequences. -/
inductive Op where
  | push (s : Option Senblk)
  | next
  | free (s : Senblk)
deriving DecidableEq, Repr

/-- The state change of one queue operation (the value a next returns is read
off separately with next_senblk). -/
def applyOp (q : IoQueue) : Op → IoQueue
  | Op.push s => push_senblk s q
  | Op.next => (next_senblk q).2
  | Op.free s => senblk_free s q

/-- Run a sequence of queue operations. -/
def runOps (q : IoQueue) (ops : List Op) : IoQueue :=
  ops.foldl applyOp q

/-- Whether an operation pushes a non-NULL unit. -/
def isUnitPush : Op → Bool
  | Op.push (some _) => true
  | _ => false

/-- Push a list of non-NULL units in order. -/
def pushAll (q : IoQueue) (us : List Senblk) : IoQueue :=
  us.foldl (fun a u => push_senblk (some u) a) q

/-- Observable content of a senblk: the valid length, the source tag and the
first len payload bytes (exactly the parts push_senblk copies). -/
def obs (b : Senblk) : Nat × Option Nat × List Nat :=
  (b.len, b.src, b.data.take b.len)

/-- Slots accounted for by the queue itself: free list plus FIFO. -/
def totalSlots (q : IoQueue) : Nat :=
  q.free.length + q.qlist.length

/-- Number of senblk_free operations in a sequence. -/
def freeOpCount : List Op → Nat
  | [] => 0
  | Op.free _ :: rest => freeOpCount rest + 1
  | _ :: rest => freeOpCount rest

/-- Whether one operation, run from the given state, detaches a slot (a next
operation that returns got). -/
def gotOne (q : IoQueue) : Op → Nat
  | Op.next =>
    match (next_senblk q).1 with
    | NextResult.got _ => 1
    | _ => 0
  | _ => 0

/-- Number of next operations in a sequence that actually detach a slot
(return got) when the sequence runs from the given state. -/
def gotCount : IoQueue → List Op → Nat
  | _, [] => 0
  | q, op :: rest => gotOne q op + gotCount (applyOp q op) rest

/-- Whether one operation, taken from the given state, stays inside the
region where the flat-list queue model agrees with the C structure: a push
of a unit must find either a free slot or at least two enqueued units. In
the two excluded states the C code degenerates: pushing with free empty and
exactly one unit enqueued self-links qtail into a one-slot cycle, and
pushing with free and FIFO both empty dereferences a NULL qhead. -/
def opSafe (q : IoQueue) : Op → Bool
  | Op.push (some _) => !(q.free.isEmpty && q.qlist.length < 2)
  | _ => true

/-- Every operation of the sequence is safe in the state where it runs. -/
def traceSafe : IoQueue → List Op → Bool
  | _, [] => true
  | q, op :: rest => opSafe q op && traceSafe (applyOp q op) rest

/-- Interface direction (enum iotype). -/
inductive Direction where
  | NONE
  | IN
  | OUT
  | BOTH
deriving DecidableEq, Repr

/-- The part of an iface_t the engine fan-out reads: its direction, its pair
pointer (an endpoint identifier, none for NULL) and its private queue. -/
structure Iface where
  direction : Direction
  pair : Option Nat
  q : IoQueue
deriving DecidableEq, Repr

def dummyIface : Iface :=
  { direction := Direction.NONE, pair := none,
    q := { free := [], qlist := [], active := true } }

/-- The src field of a possibly NULL senblk pointer, as the engine compares
it against optr pair. -/
def srcOf : Option Senblk → Option Nat
  | none => none
  | some s => s.src

/-- One fan-out step of the engine (the inner for loop over the outputs
list): push the senblk onto the queue of every interface whose direction is
OUT, except that a non-NULL senblk whose src equals the pair of the output is
skipped. -/
def engine_step (sptr : Option Senblk) (outputs : List Iface) : List Iface :=
  outputs.map fun optr =>
    if optr.direction = Direction.OUT ∧ (sptr = none ∨ srcOf sptr ≠ optr.pair)
    then { optr with q := push_senblk sptr optr.q }
    else optr

/-- The engine loop over a finite stream of non-NULL senblks dequeued from
the central queue (the senblk_free back to the central queue after each
fan-out does not touch the outputs). -/
def engine_run (us : List Senblk) (outputs : List Iface) : List Iface :=
  us.foldl (fun os u => engine_step (some u) os) outputs

/-- The -q command line check in main: qsize = atoi(optarg) is rejected with
an error when it is below 2. The argument n stands for the atoi result. -/
def qsize_arg_ok (n : Int) : Bool :=
  if n < 2 then false else true

/-- The [global] qsize option scan in main: exit(1) happens only when
atoi(option val) yields 0. The argument n stands for the atoi result. -/
def qsize_config_ok (n : Int) : Bool :=
  if n = 0 then false else true

/-- Byte values of a string, for readable test data. -/
def bytes (s : String) : List Nat :=
  s.toList.map Char.toNat

/-- Result of one next_config call on a line already read into configbuf:
needMore models the continue branch that goes on to the next line,
sectionEnd the return 0 with var set to NULL at a section header, pair the
return 0 with a variable and value, err the return -1. -/
inductive ConfigResult where
  | needMore
  | sectionEnd
  | pair (var val : List Nat)
  | err
deriving DecidableEq, Repr

def isSpaceTab (c : Nat) : Bool :=
  c = 32 || c = 9

def dropSpaceTab (s : List Nat) : List Nat :=
  s.dropWhile isSpaceTab

/-- The tail of next_config scanning an unquoted value (byte 32 space, 9 tab,
10 newline, 35 hash). The C loop runs until space or tab; a newline or hash
inside the loop ends the value with success; a NUL inside the loop is success
at end of file and an error otherwise; after space or tab only blanks,
newline, hash or NUL may remain. -/
def scanValue (varName acc : List Nat) (s : List Nat) (eof : Bool) :
    ConfigResult :=
  match s with
  | [] => if eof then ConfigResult.pair varName acc else ConfigResult.err
  | c :: rest =>
    if c = 32 || c = 9 then
      match dropSpaceTab rest with
      | [] => ConfigResult.pair varName acc
      | d :: _ =>
        if d = 10 || d = 35 then ConfigResult.pair varName acc
        else ConfigResult.err
    else if c = 10 || c = 35 then ConfigResult.pair varName acc
    else scanValue varName (acc ++ [c]) rest eof

/-- next_config (options.c), modelled on the single line sitting in
configbuf: the list holds the bytes before the terminating NUL that fgets
wrote, a newline being an ordinary element; eof models feof(fp).

In the quoted-value branch the C source reads

  for (quote=STAR(ptr++),STAR(val)=ptr; STAR(ptr) != quote; STAR(ptr++))
      if (STAR(ptr) == NUL || STAR(ptr) == NEWLINE);
          return(-1);

(with STAR for dereference): the semicolon straight after the if condition is
an empty statement, so the return -1 sits after the loop and runs
unconditionally once the loop stops at the closing quote; when no closing
quote exists the loop scans past the buffer (undefined behaviour), which the
model also maps to err. Either way a quoted value never parses. -/
def next_config (buf : List Nat) (eof : Bool) : ConfigResult :=
  match dropSpaceTab buf with
  | [] => ConfigResult.needMore
  | c :: prest =>
    if c = 35 || c = 10 then ConfigResult.needMore
    else if c = 91 then ConfigResult.sectionEnd
    else
      match (c :: prest).span (fun d => !(d = 61 || d = 32 || d = 9)) with
      | (varName, d :: rest) =>
        let afterEq : Option (List Nat) :=
          if d = 61 then some rest
          else
            match dropSpaceTab rest with
            | 61 :: rest2 => some rest2
            | _ => none
        match afterEq with
        | none => ConfigResult.err
        | some r1 =>
          match dropSpaceTab r1 with
          | q :: _ =>
            if q = 39 || q = 34 then ConfigResult.err
            else scanValue varName [] (dropSpaceTab r1) eof
          | [] => scanValue varName [] [] eof
      | (_, []) => ConfigResult.err

/-- State of the read_serial byte loop: the bytes copied so far into the
senblk under construction (count of them in count), the overrun counter and
the cr flag counter. -/
structure SerState where
  sen : List Nat
  count : Nat
  overrun : Nat
  cr : Nat
deriving DecidableEq, Repr

def serialInit : SerState :=
  { sen := [], count := 0, overrun := 0, cr := 0 }

/-- One byte of the read_serial inner loop (13 carriage return, 10 line
feed): copy the byte while count is below SENMAX, otherwise count an
overrun; a carriage return bumps cr; a line feed straight after a carriage
return ends the sentence, which is pushed unless the overrun counter is set
and the state is reset either way; any other byte clears cr. -/
def serial_byte (src : Option Nat) (st : SerState) (b : Nat) :
    SerState × Option Senblk :=
  let st1 :=
    if st.count < SENMAX
    then { st with count := st.count + 1, sen := st.sen ++ [b] }
    else { st with overrun := st.overrun + 1 }
  if b = 13 then ({ st1 with cr := st1.cr + 1 }, none)
  else if b = 10 ∧ st1.cr ≠ 0 then
    if st1.overrun ≠ 0 then
      ({ st1 with overrun := 0, sen := [], count := 0, cr := 0 }, none)
    else
      ({ st1 with sen := [], count := 0, cr := 0 },
       some { data := st1.sen, len := st1.count, src := src })
  else ({ st1 with cr := 0 }, none)

/-- Run the read_serial loop over a byte stream, collecting the pushed
senblks in order (the chunking of the stream into read calls does not change
the per-byte processing). -/
def serial_run (src : Option Nat) (st : SerState) :
    List Nat → SerState × List Senblk
  | [] => (st, [])
  | b :: bs =>
    let r1 := serial_byte src st b
    let r2 := serial_run src r1.1 bs
    (r2.1, (match r1.2 with | some s => [s] | none => []) ++ r2.2)

/-- The senblks read_serial pushes onto its queue for a given byte stream. -/
def read_serial (src : Option Nat) (stream : List Nat) : List Senblk :=
  (serial_run src serialInit stream).2

/-- A sequence of sentence bodies framed on the wire, each terminated by
carriage return and line feed. -/
def frameCRLF : List (List Nat) → List Nat
  | [] => []
  | bd :: rest => bd ++ (13 :: 10 :: frameCRLF rest)

/-- The pieces of a serial interface half that cleanup and unlink touch: its
pair pointer and whether its cleanup has restored the saved termios and
closed its descriptor. -/
structure SerEp where
  pair : Option Nat
  restored : Bool
  closed : Bool
deriving DecidableEq, Repr

def dummySerEp : SerEp :=
  { pair := none, restored := false, closed := false }

/-- cleanup_serial: tcsetattr restores the saved attributes only when the
pair pointer is NULL; the descriptor is closed either way. -/
def cleanup_serial (e : SerEp) : SerEp :=
  if e.pair = none
  then { e with restored := true, closed := true }
  else { e with closed := true }

def updateAt (eps : List SerEp) (j : Nat) (f : SerEp → SerEp) : List SerEp :=
  eps.set j (f (eps.getD j dummySerEp))

/-- The slice of unlink_interface that matters for device state: the cleanup
routine of the unlinked interface runs first (so it sees its own pair
pointer, which nobody has cleared yet if the sibling is still around), and
only afterwards the paired-endpoint notification clears the pair pointer of
the sibling. The queue shutdown and SIGUSR1 parts of the notification do not
touch termios state and are not represented. -/
def unlink_serial (eps : List SerEp) (i : Nat) : List SerEp :=
  let e := eps.getD i dummySerEp
  let eps1 := updateAt eps i cleanup_serial
  match e.pair with
  | some j => updateAt eps1 j (fun p => { p with pair := none })
  | none => eps1

/-- A BOTH serial transport right after init_serial splits it: index 0 is
the output half (keeping the original descriptor), index 1 the input half
(holding the dup), each the pair of the other. -/
def bothPair : List SerEp :=
  [ { pair := some 1, restored := false, closed := false },
    { pair := some 0, restored := false, closed := false } ]

/-- Lower-case a byte, as strcasecmp compares. -/
def lowByte (c : Nat) : Nat :=
  if 65 ≤ c ∧ c ≤ 90 then c + 32 else c

/-- strcasecmp equality. -/
def strcaseeq (a b : List Nat) : Bool :=
  a.map lowByte = b.map lowByte

/-- add_common_opt (options.c): a direction key with value in, out or both
sets the interface direction (result 0); any other value for direction is
the error result -2; any other key is left to the caller (result 1). -/
def add_common_opt (var val : List Nat) (dir : Direction) : Int × Direction :=
  if strcaseeq var (bytes "direction") then
    if strcaseeq val (bytes "in") then (0, Direction.IN)
    else if strcaseeq val (bytes "out") then (0, Direction.OUT)
    else if strcaseeq val (bytes "both") then (0, Direction.BOTH)
    else (-2, dir)
  else (1, dir)

/-- get_config (options.c) over the var and val pairs its next_config calls
deliver for one section body: direction keys go through add_common_opt,
other keys are appended to the option list, an add_common_opt error makes
the whole call return NULL (none). The interface starts with direction NONE.
Allocation failure of add_option is not modelled. -/
def get_config : List (List Nat × List Nat) → Direction →
    List (List Nat × List Nat) → Option (Direction × List (List Nat × List Nat))
  | [], dir, opts => some (dir, opts)
  | (var, val) :: rest, dir, opts =>
    match add_common_opt var val dir with
    | (r, dir2) =>
      if r = 0 then get_config rest dir2 opts
      else if r < 0 then none
      else get_config rest dir2 (opts ++ [(var, val)])

/-- Outcome of parse_file for one section: fatal covers both the lineerror
exits and the get_config failure exit. -/
inductive SectionResult where
  | fatal
  | ok (dir : Direction) (opts : List (List Nat × List Nat))
deriving DecidableEq, Repr

/-- The per-section part of parse_file: a failed get_config is fatal, and a
non-global section whose direction is still NONE afterwards is the fatal
"Must specify direction" error. -/
def parse_file_section (isGlobal : Bool) (lines : List (List Nat × List Nat)) :
    SectionResult :=
  match get_config lines Direction.NONE [] with
  | none => SectionResult.fatal
  | some (dir, opts) =>
    if isGlobal = false ∧ dir = Direction.NONE then SectionResult.fatal
    else SectionResult.ok dir opts

/-- The option loop of parse_arg over the key and value pairs cut out of the
argument: an add_common_opt error breaks out with done still unset; reaching
the end of the argument sets done. Returns (done, direction, options). -/
def parse_arg_opts : List (List Nat × List Nat) → Direction →
    List (List Nat × List Nat) →
    Bool × Direction × List (List Nat × List Nat)
  | [], dir, opts => (true, dir, opts)
  | (var, val) :: rest, dir, opts =>
    match add_common_opt var val dir with
    | (r, dir2) =>
      if r < 0 then (false, dir2, opts)
      else if r = 0 then parse_arg_opts rest dir2 opts
      else parse_arg_opts rest dir2 (opts ++ [(var, val)])

/-- parse_arg after the type prefix has been recognised: run the option
loop; an interface whose direction is still NONE is released and NULL is
returned, and the same happens when the loop broke out early (done unset). -/
def parse_arg (pairs : List (List Nat × List Nat)) :
    Option (Direction × List (List Nat × List Nat)) :=
  match parse_arg_opts pairs Direction.NONE [] with
  | (done, dir, opts) =>
    if dir = Direction.NONE then none
    else if done then some (dir, opts) else none

/-- A key and value pair that establishes a valid direction. -/
def validDirPair (p : List Nat × List Nat) : Bool :=
  strcaseeq p.1 (bytes "direction") &&
    (strcaseeq p.2 (bytes "in") || strcaseeq p.2 (bytes "out") ||
      strcaseeq p.2 (bytes "both"))

/-- Concrete senblks for instantiating the theorems. -/
def blkA : Senblk := { data := [65], len := 1, src := some 0 }

def blkB : Senblk := { data := [66], len := 1, src := some 1 }

def blkC : Senblk := { data := [67], len := 1, src := some 2 }

/-- A sentence tagged with source endpoint 7 (the pair of outIface). -/
def blkS : Senblk := { data := [36], len := 1, src := some 7 }

/-- A sentence tagged with source endpoint 3 (not paired with outIface). -/
def blkT : Senblk := { data := [37], len := 1, src := some 3 }

/-- A concrete queue holding one unit, for instantiating theorems. -/
def sampleQ : IoQueue := { free := [], qlist := [blkA], active := true }

/-- A concrete output interface paired with input endpoint 7. -/
def outIface : Iface :=
  { direction := Direction.OUT, pair := some 7, q := init_q 2 }

/-! ## Helper lemmas about the queue operations -/

theorem next_eos_iff (q : IoQueue) :
    (next_senblk q).1 = NextResult.eos ↔ q.qlist = [] ∧ q.active = false := by
  cases hq : q.qlist with
  | nil => cases ha : q.active <;> simp [next_senblk, hq, ha]
  | cons t rest => simp [next_senblk, hq]

theorem runOps_cons (q : IoQueue) (op : Op) (ops : List Op) :
    runOps q (op :: ops) = runOps (applyOp q op) ops := rfl

/-- A closed empty queue stays closed and empty under any operations that do
not push a non-NULL unit. -/
theorem closed_stable (ops : List Op) :
    ∀ q : IoQueue, q.qlist = [] → q.active = false →
    (∀ op ∈ ops, isUnitPush op = false) →
    (runOps q ops).qlist = [] ∧ (runOps q ops).active = false := by
  induction ops with
  | nil => intro q h1 h2 _; exact ⟨h1, h2⟩
  | cons op rest ih =>
    intro q h1 h2 hall
    have hop : isUnitPush op = false := hall op (List.mem_cons_self _ _)
    have hrest : ∀ o ∈ rest, isUnitPush o = false :=
      fun o ho => hall o (List.mem_cons_of_mem _ ho)
    have hq2 : (applyOp q op).qlist = [] ∧ (applyOp q op).active = false := by
      cases op with
      | push s =>
        cases s with
        | none => simp [applyOp, push_senblk, h1]
        | some u => simp [isUnitPush] at hop
      | next => simp [applyOp, next_senblk, h1, h2]
      | free s => simp [applyOp, senblk_free, h1, h2]
    rw [runOps_cons]
    exact ih (applyOp q op) hq2.1 hq2.2 hrest

/-- push_senblk never changes the number of slots the queue accounts for. -/
theorem push_total (s : Option Senblk) (q : IoQueue) :
    totalSlots (push_senblk s q) = totalSlots q := by
  cases s with
  | none => simp [push_senblk, totalSlots]
  | some u =>
    cases hf : q.free with
    | cons t rest => simp [push_senblk, hf, totalSlots]; omega
    | nil =>
      cases hq : q.qlist with
      | nil => simp [push_senblk, hf, hq, totalSlots]
      | cons t rest => simp [push_senblk, hf, hq, totalSlots]

/-- next_senblk hands at most one slot to the caller and changes the
accounted slots by exactly that much. -/
theorem next_slots (q : IoQueue) :
    totalSlots (next_senblk q).2 + gotOne q Op.next = totalSlots q := by
  cases hq : q.qlist with
  | nil => cases ha : q.active <;> simp [next_senblk, gotOne, hq, ha]
  | cons t rest => simp [next_senblk, gotOne, hq, totalSlots]; omega

/-- Slot accounting along an arbitrary operation sequence. -/
theorem cap_general (ops : List Op) : ∀ q : IoQueue,
    totalSlots (runOps q ops) + gotCount q ops =
      totalSlots q + freeOpCount ops := by
  induction ops with
  | nil => intro q; simp [runOps, gotCount, freeOpCount]
  | cons op rest ih =>
    intro q
    rw [runOps_cons]
    have ihq := ih (applyOp q op)
    cases op with
    | push s =>
      have hp : totalSlots (applyOp q (Op.push s)) = totalSlots q := push_total s q
      simp only [gotCount, gotOne, freeOpCount]
      omega
    | next =>
      have hn := next_slots q
      simp only [gotCount, freeOpCount, applyOp] at ihq hn ⊢
      omega
    | free s =>
      have hf : totalSlots (applyOp q (Op.free s)) = totalSlots q + 1 := by
        simp [applyOp, senblk_free, totalSlots]; omega
      simp only [gotCount, gotOne, freeOpCount]
      omega

/-! ## Serial framing lemmas -/

theorem serial_run_append (src : Option Nat) (xs ys : List Nat) :
    ∀ st : SerState, serial_run src st (xs ++ ys) =
      ((serial_run src (serial_run src st xs).1 ys).1,
        (serial_run src st xs).2 ++
          (serial_run src (serial_run src st xs).1 ys).2) := by
  induction xs with
  | nil => intro st; simp [serial_run]
  | cons b bs ih =>
    intro st
    simp only [List.cons_append, serial_run, List.append_eq]
    rw [ih (serial_byte src st b).1]
    simp [List.append_assoc]

/-- Scanning a carriage-return-free body from a state with cr clear: bytes
are copied while count is below SENMAX, the excess is counted as overrun,
and nothing is pushed. -/
theorem serial_body_scan (bd : List Nat) :
    ∀ (src : Option Nat) (st : SerState),
    13 ∉ bd → st.cr = 0 → st.count ≤ SENMAX →
    serial_run src st bd =
      ({ sen := st.sen ++ bd.take (SENMAX - st.count),
         count := min (st.count + bd.length) SENMAX,
         overrun := st.overrun + (st.count + bd.length - SENMAX),
         cr := 0 }, []) := by
  induction bd with
  | nil =>
    intro src st h13 hcr hcount
    obtain ⟨sen, count, overrun, cr⟩ := st
    simp only at hcr hcount
    subst hcr
    simp [serial_run, Nat.min_eq_left hcount, Nat.sub_eq_zero_of_le hcount]
  | cons b rest ih =>
    intro src st h13 hcr hcount
    obtain ⟨sen, count, overrun, cr⟩ := st
    simp only at hcr hcount
    subst hcr
    have hb : b ≠ 13 := fun h => h13 (h ▸ List.mem_cons_self b rest)
    have h13r : 13 ∉ rest := fun h => h13 (List.mem_cons_of_mem _ h)
    by_cases hc : count < SENMAX
    · have hbyte : serial_byte src ⟨sen, count, overrun, 0⟩ b =
          (⟨sen ++ [b], count + 1, overrun, 0⟩, none) := by
        simp [serial_byte, hc, hb]
      have hrun : serial_run src ⟨sen, count, overrun, 0⟩ (b :: rest) =
          serial_run src ⟨sen ++ [b], count + 1, overrun, 0⟩ rest := by
        simp [serial_run, hbyte]
      rw [hrun, ih src ⟨sen ++ [b], count + 1, overrun, 0⟩ h13r rfl
        (by show count + 1 ≤ SENMAX; omega)]
      have hA : (sen ++ [b]) ++ rest.take (SENMAX - (count + 1))
          = sen ++ (b :: rest).take (SENMAX - count) := by
        have h1 : SENMAX - count = (SENMAX - (count + 1)) + 1 := by omega
        rw [h1, List.take_succ_cons]
        simp
      have hB : min (count + 1 + rest.length) SENMAX
          = min (count + (b :: rest).length) SENMAX := by
        simp only [List.length_cons]; omega
      have hC : overrun + (count + 1 + rest.length - SENMAX)
          = overrun + (count + (b :: rest).length - SENMAX) := by
        simp only [List.length_cons]; omega
      rw [hA, hB, hC]
    · have hceq : count = SENMAX := by omega
      subst hceq
      have hbyte : serial_byte src ⟨sen, SENMAX, overrun, 0⟩ b =
          (⟨sen, SENMAX, overrun + 1, 0⟩, none) := by
        simp [serial_byte, hc, hb]
      have hrun : serial_run src ⟨sen, SENMAX, overrun, 0⟩ (b :: rest) =
          serial_run src ⟨sen, SENMAX, overrun + 1, 0⟩ rest := by
        simp [serial_run, hbyte]
      rw [hrun, ih src ⟨sen, SENMAX, overrun + 1, 0⟩ h13r rfl (Nat.le_refl _)]
      have hA : sen ++ rest.take (SENMAX - SENMAX)
          = sen ++ (b :: rest).take (SENMAX - SENMAX) := by
        simp [Nat.sub_self]
      have hB : min (SENMAX + rest.length) SENMAX
          = min (SENMAX + (b :: rest).length) SENMAX := by
        simp only [List.length_cons]; omega
      have hC : overrun + 1 + (SENMAX + rest.length - SENMAX)
          = overrun + (SENMAX + (b :: rest).length - SENMAX) := by
        simp only [List.length_cons]; omega
      rw [hA, hB, hC]

/-- Processing the carriage return and line feed pair from a state with cr
clear: the sentence is pushed exactly when the terminator still fits in the
SENMAX budget and no overrun was counted, and the state resets either way. -/
theorem serial_terminator (src : Option Nat) (st : SerState)
    (hcr : st.cr = 0) :
    serial_run src st [13, 10] =
      if st.count + 2 ≤ SENMAX ∧ st.overrun = 0
      then (serialInit,
        [{ data := st.sen ++ [13, 10], len := st.count + 2, src := src }])
      else (serialInit, []) := by
  obtain ⟨sen, count, overrun, cr⟩ := st
  simp only at hcr
  subst hcr
  by_cases h1 : count < SENMAX
  · by_cases h2 : count + 1 < SENMAX
    · by_cases h3 : overrun = 0
      · subst h3
        rw [if_pos (⟨by show count + 2 ≤ SENMAX; omega, rfl⟩ : _ ∧ _)]
        simp [serial_run, serial_byte, h1, h2, serialInit]
      · rw [if_neg (fun h => h3 h.2)]
        simp [serial_run, serial_byte, h1, h2, h3, serialInit]
    · rw [if_neg (fun h => h2 (by
        have h4 : count + 2 ≤ SENMAX := h.1
        omega))]
      simp [serial_run, serial_byte, h1, h2, serialInit]
  · rw [if_neg (fun h => h1 (by
      have h4 : count + 2 ≤ SENMAX := h.1
      omega))]
    simp [serial_run, serial_byte, h1, serialInit]

/-- One framed record, scanned from the reset state: it is pushed exactly
when body plus terminator fit in SENMAX, and the state is reset again
afterwards. -/
theorem serial_record_scan (src : Option Nat) (bd : List Nat)
    (h13 : 13 ∉ bd) :
    serial_run src serialInit (bd ++ [13, 10]) =
      (serialInit,
       if bd.length + 2 ≤ SENMAX
       then [{ data := bd ++ [13, 10], len := bd.length + 2, src := src }]
       else []) := by
  have hbody : serial_run src serialInit bd =
      (⟨bd.take SENMAX, min bd.length SENMAX, bd.length - SENMAX, 0⟩, []) := by
    rw [serial_body_scan bd src serialInit h13 rfl (Nat.zero_le _)]
    simp [serialInit]
  by_cases hA : bd.length + 2 ≤ SENMAX
  · have hmin : min bd.length SENMAX = bd.length := by omega
    have htake : bd.take SENMAX = bd := List.take_of_length_le (by omega)
    have hterm : serial_run src
        ⟨bd.take SENMAX, min bd.length SENMAX, bd.length - SENMAX, 0⟩ [13, 10]
        = (serialInit,
           [{ data := bd ++ [13, 10], len := bd.length + 2, src := src }]) := by
      rw [serial_terminator src _ rfl,
        if_pos (⟨by show min bd.length SENMAX + 2 ≤ SENMAX; omega,
                 by show bd.length - SENMAX = 0; omega⟩ :
          _ ∧ _)]
      simp [htake, hmin]
    rw [serial_run_append, hbody]
    dsimp only
    rw [hterm, if_pos hA]
    simp
  · have hterm : serial_run src
        ⟨bd.take SENMAX, min bd.length SENMAX, bd.length - SENMAX, 0⟩ [13, 10]
        = (serialInit, []) := by
      rw [serial_terminator src _ rfl,
        if_neg (by
          show ¬(min bd.length SENMAX + 2 ≤ SENMAX ∧ bd.length - SENMAX = 0)
          omega)]
    rw [serial_run_append, hbody]
    dsimp only
    rw [hterm, if_neg hA]
    simp

/-- The whole read loop over a framed stream of carriage-return-free bodies:
exactly the bodies fitting the SENMAX budget are pushed, in order, with the
terminator included in data and len. -/
theorem serial_run_frames (src : Option Nat) (bodies : List (List Nat)) :
    (∀ bd ∈ bodies, 13 ∉ bd) →
    serial_run src serialInit (frameCRLF bodies) =
      (serialInit,
       (bodies.filter fun bd => bd.length + 2 ≤ SENMAX).map
         (fun bd => { data := bd ++ [13, 10], len := bd.length + 2,
                      src := src })) := by
  induction bodies with
  | nil => intro _; simp [frameCRLF, serial_run]
  | cons bd rest ih =>
    intro hall
    have hcur : 13 ∉ bd := hall bd (List.mem_cons_self _ _)
    have hrest : ∀ o ∈ rest, 13 ∉ o :=
      fun o ho => hall o (List.mem_cons_of_mem _ ho)
    have hframe : frameCRLF (bd :: rest) = (bd ++ [13, 10]) ++ frameCRLF rest := by
      simp [frameCRLF]
    rw [hframe, serial_run_append, serial_record_scan src bd hcur]
    dsimp only
    rw [ih hrest]
    by_cases hA : bd.length + 2 ≤ SENMAX
    · rw [if_pos hA]
      simp [List.filter_cons, hA]
    · rw [if_neg hA]
      simp [List.filter_cons, hA]

/-! ## Claim theorems -/

/-- C2: pushing NULL sets active to false and enqueues nothing (so a second
push of NULL changes nothing more), next_senblk returns the end-of-stream
NULL exactly when the FIFO is empty and active is false, and on a non-empty
FIFO it returns the head unit and removes it. On an empty FIFO of an active
queue the call does not return (it waits, NextResult.blocked). -/
theorem queue_close_next_protocol (q : IoQueue) :
    (push_senblk none q).active = false ∧
    (push_senblk none q).qlist = q.qlist ∧
    (push_senblk none q).free = q.free ∧
    (push_senblk none (push_senblk none q)).active = false ∧
    (push_senblk none (push_senblk none q)).qlist = q.qlist ∧
    ((next_senblk q).1 = NextResult.eos ↔ q.qlist = [] ∧ q.active = false) ∧
    (∀ t rest, q.qlist = t :: rest →
      (next_senblk q).1 = NextResult.got t ∧
      (next_senblk q).2 = { q with qlist := rest }) := by
  refine ⟨rfl, rfl, rfl, rfl, rfl, next_eos_iff q, ?_⟩
  intro t rest h
  simp [next_senblk, h]

/-- Instance of queue_close_next_protocol at a concrete one-unit queue. -/
theorem queue_close_next_protocol_inst :
    (push_senblk none sampleQ).active = false ∧
    (next_senblk sampleQ).1 = NextResult.got blkA :=
  ⟨(queue_close_next_protocol sampleQ).1,
   ((queue_close_next_protocol sampleQ).2.2.2.2.2.2 blkA [] rfl).1⟩

/-- C3 as stated is false: after next_senblk has returned end-of-stream, a
push of a non-NULL unit re-enqueues it (push_senblk does not test active for
non-NULL senblks), and the following next_senblk returns that unit instead
of end-of-stream. -/
theorem eos_not_monotonic_under_push :
    (next_senblk (push_senblk none (init_q 2))).1 = NextResult.eos ∧
    (next_senblk (runOps (push_senblk none (init_q 2))
        [Op.push (some blkA)])).1 ≠ NextResult.eos := by
  decide

/-- C3 amended: once next_senblk has returned end-of-stream, it keeps
returning end-of-stream across any interleaving of senblk_free, push of NULL
and further next_senblk calls, that is, as long as no non-NULL unit is
pushed. -/
theorem eos_persists_without_unit_push (q : IoQueue) (ops : List Op)
    (h1 : (next_senblk q).1 = NextResult.eos)
    (h2 : ∀ op ∈ ops, isUnitPush op = false) :
    (next_senblk (runOps q ops)).1 = NextResult.eos := by
  rw [next_eos_iff] at h1
  rw [next_eos_iff]
  exact closed_stable ops q h1.1 h1.2 h2

/-- Instance of eos_persists_without_unit_push on a concrete trace. -/
theorem eos_persists_without_unit_push_inst :
    (next_senblk (push_senblk none (init_q 2))).1 = NextResult.eos ∧
    (∀ op ∈ [Op.push none, Op.free blkA, Op.next], isUnitPush op = false) ∧
    (next_senblk (runOps (push_senblk none (init_q 2))
        [Op.push none, Op.free blkA, Op.next])).1 = NextResult.eos :=
  ⟨by decide, by decide,
   eos_persists_without_unit_push _ _ (by decide) (by decide)⟩

/-- C5 as stated is false: next_senblk detaches a slot that the caller owns
until senblk_free, so right after a next the free list plus the FIFO account
for one slot fewer than size. -/
theorem capacity_broken_by_next :
    totalSlots (init_q 2) = 2 ∧
    totalSlots (next_senblk (push_senblk (some blkA) (init_q 2))).2 = 1 := by
  decide

/-- C5 amended: for a queue built by init_q size, along any sequence of
push_senblk, next_senblk and senblk_free operations in which every push
finds a free slot or at least two enqueued units, the slots on the free
list plus the enqueued units plus the slots detached by next_senblk and not
yet returned equal size: init_q establishes the balance, push_senblk
preserves the free-plus-enqueued sum (the steal branch drops one unit while
reusing its slot), next_senblk moves one slot to the caller and senblk_free
moves one back. The side condition excludes exactly the two push states
where the C structure degenerates (one-slot qtail cycle, NULL qhead
dereference) and with it the flat-list model stops describing the code. -/
theorem capacity_counts_borrowed_slots (size : Nat) (ops : List Op)
    (_hsafe : traceSafe (init_q size) ops = true) :
    totalSlots (runOps (init_q size) ops) + gotCount (init_q size) ops =
      size + freeOpCount ops := by
  have h := cap_general ops (init_q size)
  have h0 : totalSlots (init_q size) = size := by
    simp [totalSlots, init_q]
  omega

/-- Instance of capacity_counts_borrowed_slots on a safe size-2 trace that
exercises a steal (third push), a borrow and a return. -/
theorem capacity_counts_borrowed_slots_inst :
    traceSafe (init_q 2)
      [Op.push (some blkA), Op.push (some blkB), Op.push (some blkC),
       Op.next, Op.free blkB] = true ∧
    totalSlots (runOps (init_q 2)
        [Op.push (some blkA), Op.push (some blkB), Op.push (some blkC),
         Op.next, Op.free blkB]) +
      gotCount (init_q 2)
        [Op.push (some blkA), Op.push (some blkB), Op.push (some blkC),
         Op.next, Op.free blkB] =
      2 + freeOpCount
        [Op.push (some blkA), Op.push (some blkB), Op.push (some blkC),
         Op.next, Op.free blkB] :=
  ⟨by decide, capacity_counts_borrowed_slots 2 _ (by decide)⟩

/-- C6: the -q command line path rejects a queue size below 2, but the
qsize key of the [global] config section is only rejected when atoi yields
0; the value 1 (below the documented minimum of 2) passes the config check
and is used to build the central queue. -/
theorem qsize_config_accepts_one :
    qsize_arg_ok 1 = false ∧ qsize_config_ok 1 = true ∧ (1 : Int) < 2 := by
  decide

/-- C7: a body line whose value is quoted makes next_config return the error
result (a stray semicolon turns the unterminated-quote check into an
unconditional return -1 after the closing quote is found), while the same
line without quotes parses; byte 34 is the double quote. -/
theorem next_config_quoted_value_errors :
    next_config (bytes "key=" ++ [34] ++ bytes "value" ++ [34, 10]) false
      = ConfigResult.err ∧
    next_config (bytes "key=value" ++ [10]) false
      = ConfigResult.pair (bytes "key") (bytes "value") := by
  constructor
  · rfl
  · rfl

/-- C9 as stated is false: when the input half of a BOTH serial pair is
unlinked first, its unlink clears the pair pointer of the output half, and
the later cleanup of the output half then restores the saved terminal
attributes (index 0 is the output half, index 1 the input half). The input
half, unlinked while still paired, does not restore. -/
theorem output_half_restores_termios :
    ((unlink_serial (unlink_serial bothPair 1) 0).getD 0 dummySerEp).restored
      = true ∧
    ((unlink_serial bothPair 1).getD 1 dummySerEp).restored = false := by
  decide

/-- C9 amended: for a BOTH serial pair, whichever half is unlinked first
does not restore the terminal attributes (its pair pointer is still set),
and the half unlinked second does restore them (the first unlink cleared its
pair pointer); the distinction is unlink order, not input versus output. -/
theorem second_unlink_restores_termios (i j : Nat)
    (h : (i = 0 ∧ j = 1) ∨ (i = 1 ∧ j = 0)) :
    ((unlink_serial (unlink_serial bothPair i) j).getD i dummySerEp).restored
      = false ∧
    ((unlink_serial (unlink_serial bothPair i) j).getD j dummySerEp).restored
      = true := by
  rcases h with ⟨hi, hj⟩ | ⟨hi, hj⟩ <;> subst hi <;> subst hj <;> decide

/-! ## Engine fan-out lemmas -/

theorem pushAll_nil (q : IoQueue) : pushAll q [] = q := rfl

theorem pushAll_cons (q : IoQueue) (u : Senblk) (l : List Senblk) :
    pushAll q (u :: l) = pushAll (push_senblk (some u) q) l := rfl

theorem pushAll_append (q : IoQueue) (a b : List Senblk) :
    pushAll q (a ++ b) = pushAll (pushAll q a) b := by
  simp [pushAll, List.foldl_append]

theorem engine_run_nil (outputs : List Iface) :
    engine_run [] outputs = outputs := rfl

theorem engine_run_cons (u : Senblk) (us : List Senblk) (outputs : List Iface) :
    engine_run (u :: us) outputs =
      engine_run us (engine_step (some u) outputs) := rfl

theorem engine_step_get (sptr : Option Senblk) (outputs : List Iface) (i : Nat)
    (o : Iface) (h : outputs[i]? = some o) :
    (engine_step sptr outputs)[i]? = some
      (if o.direction = Direction.OUT ∧ (sptr = none ∨ srcOf sptr ≠ o.pair)
       then { o with q := push_senblk sptr o.q }
       else o) := by
  simp [engine_step, List.getElem?_map, h]

/-- What one entry of the outputs list has received after the engine has
fanned out a stream of non-NULL sentences: an OUT interface has been pushed
exactly the sentences whose src differs from its pair, in stream order, and
any other entry is untouched. -/
theorem engine_run_get (us : List Senblk) :
    ∀ (outputs : List Iface) (i : Nat) (o : Iface),
    outputs[i]? = some o →
    (engine_run us outputs)[i]? = some
      (if o.direction = Direction.OUT
       then { o with q := pushAll o.q (us.filter fun u => u.src ≠ o.pair) }
       else o) := by
  induction us with
  | nil =>
    intro outputs i o h
    rw [engine_run_nil, h]
    split <;> rfl
  | cons u rest ih =>
    intro outputs i o h
    obtain ⟨od, op, oq⟩ := o
    have hstep := engine_step_get (some u) outputs i ⟨od, op, oq⟩ h
    rw [engine_run_cons]
    by_cases hd : od = Direction.OUT
    · by_cases hs : u.src = op
      · rw [if_neg (by simp [srcOf, hs])] at hstep
        rw [ih _ i _ hstep]
        simp [List.filter_cons, hs]
      · rw [if_pos ⟨hd, Or.inr (by simpa [srcOf] using hs)⟩] at hstep
        rw [ih _ i _ hstep]
        simp [List.filter_cons, hs, hd, pushAll_cons]
    · rw [if_neg (by simp [hd])] at hstep
      rw [ih _ i _ hstep]
      simp [hd]

/-! ## Tail-preserving overrun lemmas -/

/-- Copying preserves the observable content when the source has at least
len valid bytes (in the C code the payload buffer always has SENMAX bytes
and len is at most SENMAX). -/
theorem obs_copy (t u : Senblk) (h : u.len ≤ u.data.length) :
    obs (senblk_copy t u) = obs u := by
  simp only [obs, senblk_copy]
  have hl : (u.data.take u.len).length = u.len := by
    simp [Nat.min_eq_left h]
  rw [List.take_append_eq_append_take, List.take_of_length_le (le_of_eq hl), hl]
  simp

/-- While the free list is long enough, pushes consume free slots and append
the pushed units at the tail with their observable content intact. -/
theorem pushAll_free_phase (us : List Senblk) :
    ∀ (qf ql : List Senblk) (qa : Bool),
    us.length ≤ qf.length →
    (∀ u ∈ us, u.len ≤ u.data.length) →
    (pushAll ⟨qf, ql, qa⟩ us).qlist.map obs = ql.map obs ++ us.map obs ∧
    (pushAll ⟨qf, ql, qa⟩ us).free.length = qf.length - us.length := by
  induction us with
  | nil => intro qf ql qa _ _; simp [pushAll_nil]
  | cons u rest ih =>
    intro qf ql qa hlen hdata
    cases qf with
    | nil => simp at hlen
    | cons t f =>
      have hstep : push_senblk (some u) ⟨t :: f, ql, qa⟩
          = ⟨f, ql ++ [senblk_copy t u], qa⟩ := rfl
      have hlen2 : rest.length ≤ f.length := by
        simp at hlen; omega
      have hdata2 : ∀ v ∈ rest, v.len ≤ v.data.length :=
        fun v hv => hdata v (List.mem_cons_of_mem _ hv)
      have hr := ih f (ql ++ [senblk_copy t u]) qa hlen2 hdata2
      rw [pushAll_cons, hstep]
      have hc := obs_copy t u (hdata u (List.mem_cons_self _ _))
      refine ⟨?_, ?_⟩
      · rw [hr.1]
        simp [hc]
      · rw [hr.2]
        simp only [List.length_cons]
        omega

/-- Once the free list is empty, each push steals the head slot: the FIFO
keeps its length and behaves as a sliding window over the pushed units. -/
theorem pushAll_steal_phase (us : List Senblk) :
    ∀ (ql : List Senblk) (qa : Bool),
    ql ≠ [] →
    (∀ u ∈ us, u.len ≤ u.data.length) →
    (pushAll ⟨[], ql, qa⟩ us).qlist.map obs =
      (ql.map obs ++ us.map obs).drop us.length := by
  induction us with
  | nil => intro ql qa _ _; simp [pushAll_nil]
  | cons u rest ih =>
    intro ql qa hne hdata
    cases ql with
    | nil => exact absurd rfl hne
    | cons t qr =>
      have hstep : push_senblk (some u) ⟨[], t :: qr, qa⟩
          = ⟨[], qr ++ [senblk_copy t u], qa⟩ := rfl
      have hr := ih (qr ++ [senblk_copy t u]) qa (by simp)
        (fun v hv => hdata v (List.mem_cons_of_mem _ hv))
      rw [pushAll_cons, hstep, hr]
      have hc := obs_copy t u (hdata u (List.mem_cons_self _ _))
      simp [hc, List.drop_succ_cons]

/-! ## Direction-parsing lemmas -/

theorem add_common_opt_no_dir (var val : List Nat) (dir : Direction)
    (h : validDirPair (var, val) = false) :
    add_common_opt var val dir = (1, dir) ∨
      add_common_opt var val dir = (-2, dir) := by
  unfold validDirPair at h
  by_cases h1 : strcaseeq var (bytes "direction")
  · simp only [h1, Bool.true_and] at h
    obtain ⟨⟨h2, h3⟩, h4⟩ := by simpa using h
    simp [add_common_opt, h1, h2, h3, h4]
  · simp [add_common_opt, h1]

/-- The parse_arg option loop never changes the direction away from its
start value when no pair establishes a valid direction. -/
theorem parse_arg_opts_dir (pairs : List (List Nat × List Nat)) :
    ∀ dir opts, (∀ p ∈ pairs, validDirPair p = false) →
    (parse_arg_opts pairs dir opts).2.1 = dir := by
  induction pairs with
  | nil => intro dir opts _; rfl
  | cons p rest ih =>
    intro dir opts hall
    obtain ⟨var, val⟩ := p
    have hp : validDirPair (var, val) = false :=
      hall (var, val) (List.mem_cons_self _ _)
    have hrest : ∀ o ∈ rest, validDirPair o = false :=
      fun o ho => hall o (List.mem_cons_of_mem _ ho)
    rcases add_common_opt_no_dir var val dir hp with h | h
    · have : parse_arg_opts ((var, val) :: rest) dir opts =
          parse_arg_opts rest dir (opts ++ [(var, val)]) := by
        simp [parse_arg_opts, h]
      rw [this]
      exact ih dir _ hrest
    · simp [parse_arg_opts, h]

theorem parse_arg_no_dir (pairs : List (List Nat × List Nat))
    (h : ∀ p ∈ pairs, validDirPair p = false) :
    parse_arg pairs = none := by
  have hd := parse_arg_opts_dir pairs Direction.NONE [] h
  unfold parse_arg
  rcases hpo : parse_arg_opts pairs Direction.NONE [] with ⟨done, dir, opts⟩
  rw [hpo] at hd
  simp at hd
  simp [hd]

/-- get_config either fails outright or returns with the direction it
started from, when no pair establishes a valid direction. -/
theorem get_config_no_dir (pairs : List (List Nat × List Nat)) :
    ∀ dir opts, (∀ p ∈ pairs, validDirPair p = false) →
    get_config pairs dir opts = none ∨
      ∃ opts2, get_config pairs dir opts = some (dir, opts2) := by
  induction pairs with
  | nil => intro dir opts _; exact Or.inr ⟨opts, rfl⟩
  | cons p rest ih =>
    intro dir opts hall
    obtain ⟨var, val⟩ := p
    have hp : validDirPair (var, val) = false :=
      hall (var, val) (List.mem_cons_self _ _)
    have hrest : ∀ o ∈ rest, validDirPair o = false :=
      fun o ho => hall o (List.mem_cons_of_mem _ ho)
    rcases add_common_opt_no_dir var val dir hp with h | h
    · have : get_config ((var, val) :: rest) dir opts =
          get_config rest dir (opts ++ [(var, val)]) := by
        simp [get_config, h]
      rw [this]
      exact ih dir _ hrest
    · have : get_config ((var, val) :: rest) dir opts = none := by
        simp [get_config, h]
      exact Or.inl this

/-- Instance of second_unlink_restores_termios with the output half first. -/
theorem second_unlink_restores_termios_inst :
    ((0 = 0 ∧ 1 = 1) ∨ (0 = 1 ∧ 1 = 0)) ∧
    ((unlink_serial (unlink_serial bothPair 0) 1).getD 0 dummySerEp).restored
      = false ∧
    ((unlink_serial (unlink_serial bothPair 0) 1).getD 1 dummySerEp).restored
      = true :=
  ⟨Or.inl ⟨rfl, rfl⟩,
   (second_unlink_restores_termios 0 1 (Or.inl ⟨rfl, rfl⟩)).1,
   (second_unlink_restores_termios 0 1 (Or.inl ⟨rfl, rfl⟩)).2⟩

/-- C4: over any stream of dequeued non-end-of-stream sentences, an output
entry of the outputs list receives exactly the sentences whose src differs
from its pair, in order; so no sentence whose src equals the pair of the
output is ever pushed onto its queue, and for a BOTH endpoint split into
(in1, out1) with out1.pair = in1 no sentence with src = in1 reaches out1.
Entries whose direction is not OUT receive nothing. -/
theorem engine_loop_prevention (us : List Senblk) (outputs : List Iface)
    (i : Nat) (o : Iface) (h : outputs[i]? = some o) :
    (engine_run us outputs)[i]? = some
      (if o.direction = Direction.OUT
       then { o with q := pushAll o.q (us.filter fun u => u.src ≠ o.pair) }
       else o) :=
  engine_run_get us outputs i o h

/-- Instance of engine_loop_prevention: a two-sentence stream fanned out to
one output paired with input 7; the sentence from source 7 is filtered. -/
theorem engine_loop_prevention_inst :
    ([outIface] : List Iface)[0]? = some outIface ∧
    (engine_run [blkS, blkT] [outIface])[0]? = some
      (if outIface.direction = Direction.OUT
       then { outIface with
              q := pushAll outIface.q
                ([blkS, blkT].filter fun u => u.src ≠ outIface.pair) }
       else outIface) :=
  ⟨rfl, engine_loop_prevention [blkS, blkT] [outIface] 0 outIface rfl⟩

/-- C10: a section or argument option list in which no key establishes a
valid direction (either no direction key at all, or only direction keys with
invalid values) makes the parsers fail: parse_file treats the non-global
section as a fatal parse error, and parse_arg returns NULL. -/
theorem direction_required_by_parsers (pairs : List (List Nat × List Nat))
    (h : ∀ p ∈ pairs, validDirPair p = false) :
    parse_file_section false pairs = SectionResult.fatal ∧
      parse_arg pairs = none := by
  constructor
  · unfold parse_file_section
    rcases get_config_no_dir pairs Direction.NONE [] h with hg | ⟨opts2, hg⟩
    · rw [hg]
    · rw [hg]; simp
  · exact parse_arg_no_dir pairs h

/-- C1: pushing never blocks or fails (push_senblk is a total state change:
a free slot is used while one exists, else the head slot is stolen); from a
fresh queue of size at least 2, after size+k pushes with no intervening
next, the FIFO holds exactly the last size pushed units in push order
(up to the observable content the copy preserves), and when the pushed
units are pairwise distinct none of the first k is still present. -/
theorem push_overrun_tail_preserving (size k : Nat) (us : List Senblk)
    (hsize : 2 ≤ size) (hlen : us.length = size + k)
    (hdata : ∀ u ∈ us, u.len ≤ u.data.length) :
    (pushAll (init_q size) us).qlist.map obs = (us.drop k).map obs ∧
    ((us.map obs).Nodup →
      ∀ u ∈ us.take k, obs u ∉ (pushAll (init_q size) us).qlist.map obs) := by
  have hinit : init_q size =
      (⟨List.replicate size zeroSenblk, [], true⟩ : IoQueue) := rfl
  have hsplit : us.take size ++ us.drop size = us := List.take_append_drop size us
  have hl1 : (us.take size).length = size := by
    rw [List.length_take]; omega
  have hl2 : (us.drop size).length = k := by
    rw [List.length_drop]; omega
  have hd1 : ∀ u ∈ us.take size, u.len ≤ u.data.length :=
    fun u hu => hdata u (List.take_subset _ _ hu)
  have hd2 : ∀ u ∈ us.drop size, u.len ≤ u.data.length :=
    fun u hu => hdata u (List.drop_subset _ _ hu)
  have hp1 := pushAll_free_phase (us.take size)
    (List.replicate size zeroSenblk) [] true
    (by rw [hl1, List.length_replicate]) hd1
  rcases hEq : pushAll ⟨List.replicate size zeroSenblk, [], true⟩ (us.take size)
    with ⟨q1f, q1l, q1a⟩
  rw [hEq] at hp1
  have hmap : q1l.map obs = (us.take size).map obs := by
    have := hp1.1
    simpa using this
  have hfree : q1f = [] := by
    have := hp1.2
    simp [hl1, List.length_replicate] at this
    exact this
  have hne : q1l ≠ [] := by
    intro h
    have := congrArg List.length hmap
    rw [h] at this
    simp [hl1] at this
    omega
  have hp2 := pushAll_steal_phase (us.drop size) q1l q1a hne hd2
  have hcomp : pushAll (init_q size) us =
      pushAll ⟨[], q1l, q1a⟩ (us.drop size) := by
    conv_lhs => rw [← hsplit]
    rw [hinit, pushAll_append, hEq, hfree]
  have hmain : (pushAll (init_q size) us).qlist.map obs =
      (us.drop k).map obs := by
    rw [hcomp, hp2, hl2, hmap, ← List.map_append, hsplit]
    exact (List.map_drop obs us k).symm
  refine ⟨hmain, ?_⟩
  intro hnd u hu hmem
  rw [hmain] at hmem
  have hnd2 : ((us.take k).map obs ++ (us.drop k).map obs).Nodup := by
    rw [← List.map_append, List.take_append_drop]
    exact hnd
  have hdisj := (List.nodup_append.mp hnd2).2.2
  exact hdisj (List.mem_map_of_mem obs hu) hmem

/-- Instance of push_overrun_tail_preserving: size 2 and three distinct
pushed units, the last two of which remain. -/
theorem push_overrun_tail_preserving_inst :
    (2 ≤ 2 ∧ ([blkA, blkB, blkC] : List Senblk).length = 2 + 1 ∧
      (∀ u ∈ [blkA, blkB, blkC], u.len ≤ u.data.length)) ∧
    ((pushAll (init_q 2) [blkA, blkB, blkC]).qlist.map obs =
        (([blkA, blkB, blkC] : List Senblk).drop 1).map obs ∧
      ((([blkA, blkB, blkC] : List Senblk).map obs).Nodup →
        ∀ u ∈ ([blkA, blkB, blkC] : List Senblk).take 1,
          obs u ∉ (pushAll (init_q 2) [blkA, blkB, blkC]).qlist.map obs)) :=
  ⟨⟨by decide, by decide, by decide⟩,
   push_overrun_tail_preserving 2 1 [blkA, blkB, blkC]
     (by decide) (by decide) (by decide)⟩

/-- C8 as stated is false: read_serial copies the carriage return and line
feed into the sentence and counts them against the SENMAX budget, so a
sentence whose body is SENMAX-1 bytes (95 here, within the claimed SENMAX
limit) is discarded rather than pushed. -/
theorem senmax_boundary_sentence_dropped :
    read_serial (some 0) (List.replicate 95 65 ++ [13, 10]) = [] ∧
    95 ≤ SENMAX := by
  constructor
  · decide
  · decide

/-- C8 amended: read_serial frames sentences at the carriage return plus
line feed terminator, stores the terminator in the sentence (len = body
length + 2) and tags it with the input endpoint; a sentence is pushed
exactly once iff its length including the terminator is at most SENMAX,
that is, iff its body is at most SENMAX - 2 bytes; longer sentences are
silently discarded. Stated for bodies free of carriage returns, which is
what the terminator search requires for clean framing. -/
theorem read_serial_framing (src : Option Nat) (bodies : List (List Nat))
    (h : ∀ bd ∈ bodies, 13 ∉ bd) :
    read_serial src (frameCRLF bodies) =
      (bodies.filter fun bd => bd.length + 2 ≤ SENMAX).map
        (fun bd => { data := bd ++ [13, 10], len := bd.length + 2,
                     src := src }) := by
  unfold read_serial
  rw [serial_run_frames src bodies h]

/-- Instance of read_serial_framing: a short sentence is pushed with the
terminator included, an over-budget one is dropped. -/
theorem read_serial_framing_inst :
    (∀ bd ∈ [[36, 72], List.replicate 95 65], (13 : Nat) ∉ bd) ∧
    read_serial (some 0) (frameCRLF [[36, 72], List.replicate 95 65]) =
      (([[36, 72], List.replicate 95 65] : List (List Nat)).filter
          fun bd => bd.length + 2 ≤ SENMAX).map
        (fun bd => { data := bd ++ [13, 10], len := bd.length + 2,
                     src := some 0 }) :=
  ⟨by decide, read_serial_framing (some 0) _ (by decide)⟩

/-- Instance of direction_required_by_parsers on a section with only a
filename key. -/
theorem direction_required_by_parsers_inst :
    (∀ p ∈ [(bytes "filename", bytes "/dev/ttyS0")], validDirPair p = false) ∧
    parse_file_section false [(bytes "filename", bytes "/dev/ttyS0")]
      = SectionResult.fatal ∧
    parse_arg [(bytes "filename", bytes "/dev/ttyS0")] = none :=
  ⟨by decide, direction_required_by_parsers _ (by decide)⟩

end Kplex
